import Mathlib

/-
Verification of the MIPS pipeline stall simulator (scriptpythonMIPS.py).

The development shallowly embeds the three pieces of the program:
  * the instruction decoder `parse_instr`,
  * the latency lookup `get_latency`,
  * the hazard-scheduling pass `analyze` (per-line step `stepLine`).
String processing is modelled on `List Char` so that every definition is
executable and kernel-reducible.
-/

namespace MIPS

/-- The whitespace characters recognized by Python's `str.strip` /
regex `\s` on ASCII input. -/
def isPyWS (c : Char) : Bool :=
  c = ' ' || c = '\t' || c = '\n' || c = '\r' || c = '\x0B' || c = '\x0C'

/-- Separator characters of `re.split(r'[,\s]+', ...)`: comma or whitespace. -/
def isSepChar (c : Char) : Bool :=
  c = ',' || isPyWS c

/-- ASCII uppercasing of one character (Python `str.upper` on ASCII). -/
def upChar (c : Char) : Char :=
  if 'a' ≤ c ∧ c ≤ 'z' then Char.ofNat (c.toNat - 32) else c

/-- Uppercase a whole string. -/
def upStr (s : String) : String := ⟨s.data.map upChar⟩

/-- Strip leading and trailing whitespace (Python `str.strip`). -/
def stripWS (cs : List Char) : List Char :=
  ((cs.dropWhile isPyWS).reverse.dropWhile isPyWS).reverse

/-- `str.strip` lifted to `String`. -/
def pyStrip (s : String) : String := ⟨stripWS s.data⟩

/-- `instr.split('#')[0]`: the prefix of the line before the first `#`. -/
def stripComment (s : String) : String := ⟨s.data.takeWhile (fun c => c ≠ '#')⟩

/-- Splitting a character list at every separator character, keeping empty
pieces (the behavior of Python `str.split(sep)` / `re.split`).  The second
argument accumulates the current piece in reverse. -/
def splitAux (p : Char → Bool) : List Char → List Char → List (List Char)
  | [], acc => [acc.reverse]
  | c :: cs, acc => if p c then acc.reverse :: splitAux p cs [] else splitAux p cs (c :: acc)

/-- `re.split(r'[,\s]+', s)` followed by dropping empty tokens
(`[p for p in parts if p]`). -/
def tokenize (s : String) : List String :=
  ((splitAux isSepChar s.data []).filter (fun cs => cs ≠ [])).map (fun cs => (⟨cs⟩ : String))

/-- Python `s.split('\n')` (keeps empty pieces; on `""` yields `[""]`). -/
def splitNL (s : String) : List String :=
  (splitAux (fun c => c = '\n') s.data []).map (fun cs => (⟨cs⟩ : String))

/-- Does the token contain a parenthesis (`'(' in p`)? -/
def hasParen (p : String) : Bool := p.data.contains '('

/-- `p.split('(')[1].replace(')','')`: the base register of a memory operand
such as `0(R1)`.  Guarded by `hasParen` at every use site, exactly as the
source guards the index access. -/
def parenBase (cs : List Char) : List Char :=
  ((splitAux (fun c => c = '(') cs []).getD 1 []).filter (fun c => c ≠ ')')

/-- Base-register extraction lifted to `String`. -/
def memBase (p : String) : String := ⟨parenBase p.data⟩

/-- The regex `^[A-Za-z_]+$`: a nonempty token made only of letters and
underscores (a plain branch-label token). -/
def isLabelTok (p : String) : Bool :=
  p.data ≠ [] && p.data.all (fun c => ('A' ≤ c ∧ c ≤ 'Z') ∨ ('a' ≤ c ∧ c ≤ 'z') ∨ c = '_')

/-- `'$' in p`. -/
def hasSigil (p : String) : Bool := p.data.contains '$'

/-- `p.upper().startswith('R') or p.upper().startswith('F')`. -/
def startsRF (p : String) : Bool :=
  match (upStr p).data with
  | c :: _ => c = 'R' || c = 'F'
  | [] => false

/-- The fixed store/branch/jump mnemonic list of the source. -/
def storeBranchOps : List String := ["S.D", "SW", "SB", "BEQ", "BNE", "JR"]

/-- Source extraction for one operand of a store/branch/jump instruction,
mirroring the if/elif chain of the source:
memory operand → its base register; token failing the pure-label regex →
kept; label-looking token → kept only when it has a `$` or starts with
`R`/`F`; otherwise skipped. -/
def storeSrcTok (p : String) : Option String :=
  if hasParen p then some (memBase p)
  else if ¬ (isLabelTok p = true) then some p
  else if hasSigil p || startsRF p then some p
  else none

/-- Source extraction for one operand in the default (arithmetic/load)
category: memory operands contribute their base register, everything else
is kept as written. -/
def plainSrcTok (p : String) : String :=
  if hasParen p then memBase p else p

/-- The decoder's dispatch on the token list (the body of `parse_instr`
after cleanup): returns the Python triple `(op, dest, srcs)` with
`op = some "LABEL"` for label lines and `op = none` for empty lines. -/
def parseToks : List String → Option String × Option String × List String
  | [] => (none, none, [])
  | p0 :: rest =>
    let op := upStr p0
    if op.data.getLast? = some ':' then (some "LABEL", none, [])
    else if op ∈ storeBranchOps then (some op, none, rest.filterMap storeSrcTok)
    else
      match rest with
      | [] => (some op, none, [])
      | d :: srcToks => (some op, some d, srcToks.map plainSrcTok)

/-- `MIPSPipelineSimulator.parse_instr`: strip the comment and surrounding
whitespace, tokenize, and classify. -/
def parse_instr (instr : String) : Option String × Option String × List String :=
  parseToks (tokenize (pyStrip (stripComment instr)))

/-- `MIPSPipelineSimulator.get_latency`. -/
def get_latency (op : String) : Nat :=
  if op = "DIV.D" ∨ op = "DIV" then 10
  else if op = "MUL.D" ∨ op = "MUL" then 4
  else if op = "L.D" ∨ op = "LW" then 2
  else 1

/-- `get_latency` as called on the decoder's optional mnemonic; Python's
`None` is in none of the lists, so it falls to the default 1. -/
def latencyOfOp : Option String → Nat
  | some m => get_latency m
  | none => 1

/-- The readiness table `reg_ready_cycle`: an insertion-ordered map from
register name to ready cycle. -/
abbrev Table := List (String × Nat)

/-- Dictionary lookup. -/
def tlookup : Table → String → Option Nat
  | [], _ => none
  | (a, b) :: ts, k => if a = k then some b else tlookup ts k

/-- Dictionary update `d[k] = v` (overwrites an existing key). -/
def tinsert : Table → String → Nat → Table
  | [], k, v => [(k, v)]
  | (a, b) :: ts, k, v => if a = k then (k, v) :: ts else (a, b) :: tinsert ts k v

/-- One line of the simulator's cycle-indexed output. -/
inductive LogLine where
  | labelLn (cycle : Nat) (text : String)
  | bubble (cycle : Nat) (waitReg : String)
  | execLn (cycle : Nat) (text : String) (op : Option String)
  deriving DecidableEq

/-- The cycle number a log line is printed at. -/
def LogLine.cycleOf : LogLine → Nat
  | .labelLn c _ => c
  | .bubble c _ => c
  | .execLn c _ _ => c

/-- Is the log line a label line? -/
def LogLine.isLabelLn : LogLine → Bool
  | .labelLn _ _ => true
  | _ => false

/-- The scheduler's running state inside `analyze`. -/
structure SimState where
  table : Table
  cycle : Nat
  stalls : Nat
  log : List LogLine
  deriving DecidableEq

/-- One iteration of the hazard-scan loop (`for src in srcs`): a strictly
greater wait replaces the running maximum and records the register. -/
def hazardStep (t : Table) (cur : Nat) (acc : Nat × String) (src : String) : Nat × String :=
  match tlookup t src with
  | some ready_at =>
    if cur < ready_at then
      if acc.1 < ready_at - cur then (ready_at - cur, src) else acc
    else acc
  | none => acc

/-- The hazard scan over all sources, from `(max_stall, wait_reg) = (0, "")`. -/
def hazard (t : Table) (cur : Nat) (srcs : List String) : Nat × String :=
  srcs.foldl (hazardStep t cur) (0, "")

/-- Processing of one raw input line by the body of `analyze`'s loop. -/
def stepLine (st : SimState) (rawLine : String) : SimState :=
  let line := pyStrip rawLine
  if line = "" then st
  else
    let pr := parse_instr line
    if pr.1 = some "LABEL" then
      { st with log := st.log ++ [LogLine.labelLn st.cycle line] }
    else
      let hz := hazard st.table st.cycle pr.2.2
      let issue := st.cycle + hz.1
      { table :=
          match pr.2.1 with
          | some d => tinsert st.table d (issue + latencyOfOp pr.1)
          | none => st.table,
        cycle := issue + 1,
        stalls := st.stalls + hz.1,
        log := st.log ++ (List.range hz.1).map (fun i => LogLine.bubble (st.cycle + i) hz.2)
            ++ [LogLine.execLn issue line pr.1] }

/-- The state at the start of `analyze`: table reset, cycle 1, no stalls. -/
def initState : SimState := { table := [], cycle := 1, stalls := 0, log := [] }

/-- Folding the per-line step over the input lines. -/
def runLines (st : SimState) (ls : List String) : SimState := ls.foldl stepLine st

/-- `code_str.strip().split('\n')`. -/
def linesOf (code_str : String) : List String := splitNL (pyStrip code_str)

/-- The summary printed at the end of `analyze`. -/
structure AnalysisResult where
  log : List LogLine
  instCount : Nat
  stalls : Nat
  execCycles : Nat
  deriving DecidableEq

/-- `MIPSPipelineSimulator.analyze`: the first argument is the simulator's
`reg_ready_cycle` field at call time, which the method immediately resets
to the empty table; the returned table is the field's value afterwards. -/
def analyze (reg_ready_cycle : Table) (code_str : String) : AnalysisResult × Table :=
  let lines := linesOf code_str
  let fin := runLines initState lines
  ({ log := fin.log, instCount := lines.length, stalls := fin.stalls,
     execCycles := fin.cycle - 1 }, fin.table)

end MIPS

namespace MIPS

/-! ### Vocabulary used by the claims -/

/-- The wait a single source register imposes at cycle `cur`:
`max 0 (ready_cycle[r] - cur)` when `r` is present in the readiness table,
`0` when absent. -/
def waitOf (t : Table) (cur : Nat) (s : String) : Nat :=
  match tlookup t s with
  | some r => r - cur
  | none => 0

/-- The maximum wait over a list of source registers. -/
def maxWait (t : Table) (cur : Nat) (srcs : List String) : Nat :=
  srcs.foldr (fun s m => max (waitOf t cur s) m) 0

/-! ### Readiness-table lemmas -/

theorem tlookup_tinsert_self (t : Table) (k : String) (v : Nat) :
    tlookup (tinsert t k v) k = some v := by
  induction t with
  | nil => simp [tinsert, tlookup]
  | cons p ts ih =>
    obtain ⟨a, b⟩ := p
    by_cases h : a = k
    · simp [tinsert, h, tlookup]
    · simp [tinsert, h, tlookup, ih]

theorem tlookup_tinsert_ne (t : Table) (k k' : String) (v : Nat) (h : k' ≠ k) :
    tlookup (tinsert t k v) k' = tlookup t k' := by
  induction t with
  | nil =>
    simp [tinsert, tlookup]
    exact fun hh => h hh.symm
  | cons p ts ih =>
    obtain ⟨a, b⟩ := p
    by_cases ha : a = k
    · subst ha
      simp [tinsert, tlookup, Ne.symm h]
    · simp [tinsert, ha, tlookup, ih]

/-! ### Characterization of the hazard scan -/

theorem hazardStep_eq (t : Table) (cur : Nat) (acc : Nat × String) (src : String) :
    hazardStep t cur acc src =
      if acc.1 < waitOf t cur src then (waitOf t cur src, src) else acc := by
  unfold hazardStep waitOf
  cases h : tlookup t src with
  | none => simp
  | some r =>
    by_cases hc : cur < r
    · simp [hc]
    · have h0 : r - cur = 0 := by omega
      simp [hc, h0]

theorem maxWait_cons (t : Table) (cur : Nat) (s : String) (rest : List String) :
    maxWait t cur (s :: rest) = max (waitOf t cur s) (maxWait t cur rest) := rfl

theorem hazard_foldl_char (t : Table) (cur : Nat) (srcs : List String) :
    ∀ (m : Nat) (r : String),
      (maxWait t cur srcs ≤ m → srcs.foldl (hazardStep t cur) (m, r) = (m, r)) ∧
      (m < maxWait t cur srcs →
        ∃ s, srcs.find? (fun x => waitOf t cur x == maxWait t cur srcs) = some s ∧
          srcs.foldl (hazardStep t cur) (m, r) = (maxWait t cur srcs, s)) := by
  induction srcs with
  | nil =>
    intro m r
    refine ⟨fun _ => rfl, fun h => absurd h (by simp [maxWait])⟩
  | cons s rest ih =>
    intro m r
    have hfold : ∀ (a : Nat × String),
        List.foldl (hazardStep t cur) a (s :: rest) =
          List.foldl (hazardStep t cur) (hazardStep t cur a s) rest := fun a => rfl
    constructor
    · intro hle
      rw [maxWait_cons] at hle
      have hw : waitOf t cur s ≤ m := le_trans (le_max_left _ _) hle
      have hM : maxWait t cur rest ≤ m := le_trans (le_max_right _ _) hle
      rw [hfold, hazardStep_eq, if_neg (by omega)]
      exact (ih m r).1 hM
    · intro hlt
      rw [maxWait_cons] at hlt
      by_cases hmw : m < waitOf t cur s
      · by_cases hMw : maxWait t cur rest ≤ waitOf t cur s
        · have hmax : maxWait t cur (s :: rest) = waitOf t cur s := by
            rw [maxWait_cons]; omega
          refine ⟨s, ?_, ?_⟩
          · rw [hmax]
            exact List.find?_cons_of_pos _ (by simp)
          · rw [hmax, hfold, hazardStep_eq, if_pos hmw]
            exact (ih (waitOf t cur s) s).1 hMw
        · have hwM : waitOf t cur s < maxWait t cur rest := by omega
          have hmax : maxWait t cur (s :: rest) = maxWait t cur rest := by
            rw [maxWait_cons]; omega
          obtain ⟨s', hfind, hrec⟩ := (ih (waitOf t cur s) s).2 hwM
          refine ⟨s', ?_, ?_⟩
          · rw [hmax]
            rw [List.find?_cons_of_neg _ (by simp; omega)]
            exact hfind
          · rw [hmax, hfold, hazardStep_eq, if_pos hmw]
            exact hrec
      · have hmM : m < maxWait t cur rest := by omega
        have hmax : maxWait t cur (s :: rest) = maxWait t cur rest := by
          rw [maxWait_cons]; omega
        obtain ⟨s', hfind, hrec⟩ := (ih m r).2 hmM
        refine ⟨s', ?_, ?_⟩
        · rw [hmax]
          rw [List.find?_cons_of_neg _ (by simp; omega)]
          exact hfind
        · rw [hmax, hfold, hazardStep_eq, if_neg hmw]
          exact hrec

theorem hazard_fst (t : Table) (cur : Nat) (srcs : List String) :
    (hazard t cur srcs).1 = maxWait t cur srcs := by
  rcases Nat.eq_zero_or_pos (maxWait t cur srcs) with h | h
  · have := (hazard_foldl_char t cur srcs 0 "").1 (by omega)
    unfold hazard
    rw [this, h]
  · obtain ⟨s, _, hf⟩ := (hazard_foldl_char t cur srcs 0 "").2 h
    unfold hazard
    rw [hf]

theorem hazard_snd_first (t : Table) (cur : Nat) (srcs : List String)
    (h : 0 < maxWait t cur srcs) :
    srcs.find? (fun x => waitOf t cur x == maxWait t cur srcs) =
      some (hazard t cur srcs).2 := by
  obtain ⟨s, hfind, hf⟩ := (hazard_foldl_char t cur srcs 0 "").2 h
  unfold hazard
  rw [hf]
  exact hfind

theorem waitOf_le_maxWait (t : Table) (cur : Nat) (srcs : List String) (s : String)
    (h : s ∈ srcs) : waitOf t cur s ≤ maxWait t cur srcs := by
  induction srcs with
  | nil => cases h
  | cons a rest ih =>
    rw [maxWait_cons]
    rcases List.mem_cons.mp h with h | h
    · subst h; exact le_max_left _ _
    · exact le_trans (ih h) (le_max_right _ _)

/-! ### Unfolding lemmas for the per-line step -/

theorem parse_instr_of_empty : parse_instr "" = (none, none, []) := rfl

theorem stepLine_of_empty (st : SimState) (rawLine : String) (h : pyStrip rawLine = "") :
    stepLine st rawLine = st := by
  simp [stepLine, h]

theorem parse_nonempty_of_some (rawLine : String) (o : String)
    (d : Option String) (srcs : List String)
    (hp : parse_instr (pyStrip rawLine) = (some o, d, srcs)) : pyStrip rawLine ≠ "" := by
  intro h
  rw [h, parse_instr_of_empty] at hp
  exact Option.noConfusion (congrArg Prod.fst hp)

theorem stepLine_of_label (st : SimState) (rawLine : String) (d : Option String)
    (srcs : List String)
    (hp : parse_instr (pyStrip rawLine) = (some "LABEL", d, srcs)) :
    stepLine st rawLine =
      { st with log := st.log ++ [LogLine.labelLn st.cycle (pyStrip rawLine)] } := by
  have hne := parse_nonempty_of_some rawLine "LABEL" d srcs hp
  simp [stepLine, hne, hp]

theorem stepLine_of_nonlabel (st : SimState) (rawLine : String) (o d : Option String)
    (srcs : List String) (hne : pyStrip rawLine ≠ "")
    (hp : parse_instr (pyStrip rawLine) = (o, d, srcs)) (hm : o ≠ some "LABEL") :
    stepLine st rawLine =
      { table :=
          match d with
          | some dd =>
            tinsert st.table dd
              (st.cycle + (hazard st.table st.cycle srcs).1 + latencyOfOp o)
          | none => st.table,
        cycle := st.cycle + (hazard st.table st.cycle srcs).1 + 1,
        stalls := st.stalls + (hazard st.table st.cycle srcs).1,
        log := st.log
            ++ (List.range (hazard st.table st.cycle srcs).1).map
                (fun i => LogLine.bubble (st.cycle + i) (hazard st.table st.cycle srcs).2)
            ++ [LogLine.execLn (st.cycle + (hazard st.table st.cycle srcs).1)
                  (pyStrip rawLine) o] } := by
  cases d with
  | none => simp [stepLine, hne, hp, hm]
  | some dd => simp [stepLine, hne, hp, hm]

end MIPS

namespace MIPS

/-! ### C1: bubble insertion before an operation -/

/-- C1: For every `Operation` instruction processed by the scheduler, the
number of bubble cycles inserted before it equals the maximum over all
source registers present in the readiness table of
`max 0 (ready_cycle r - current_cycle)` (absent registers contribute 0);
each bubble advances the cycle counter by one and increments the total
stall counter by one; and the register reported as waited-on is the first
source, in declared operand order, achieving that maximum. -/
theorem C1_stall_insertion (st : SimState) (rawLine m : String) (d : Option String)
    (srcs : List String)
    (hp : parse_instr (pyStrip rawLine) = (some m, d, srcs)) (hm : m ≠ "LABEL") :
    (stepLine st rawLine).stalls = st.stalls + maxWait st.table st.cycle srcs ∧
    (stepLine st rawLine).cycle = st.cycle + maxWait st.table st.cycle srcs + 1 ∧
    (stepLine st rawLine).log = st.log
        ++ (List.range (maxWait st.table st.cycle srcs)).map
            (fun i => LogLine.bubble (st.cycle + i) (hazard st.table st.cycle srcs).2)
        ++ [LogLine.execLn (st.cycle + maxWait st.table st.cycle srcs)
              (pyStrip rawLine) (some m)] ∧
    (0 < maxWait st.table st.cycle srcs →
      srcs.find? (fun x => waitOf st.table st.cycle x == maxWait st.table st.cycle srcs)
        = some (hazard st.table st.cycle srcs).2) := by
  have hne := parse_nonempty_of_some rawLine m d srcs hp
  have hm' : (some m : Option String) ≠ some "LABEL" := fun hh => hm (Option.some.inj hh)
  have hstep := stepLine_of_nonlabel st rawLine (some m) d srcs hne hp hm'
  refine ⟨?_, ?_, ?_, fun h => hazard_snd_first st.table st.cycle srcs h⟩
  · rw [hstep]
    simp [hazard_fst]
  · rw [hstep]
    simp [hazard_fst]
  · rw [hstep]
    simp [hazard_fst]

/-- Witness for C1 at `ADD R2, R1, R3` with `R1` ready at cycle 5 and the
scheduler at cycle 2: three bubbles, waiting on `R1`. -/
theorem C1_stall_insertion_witness :
    (stepLine ⟨[("R1", 5)], 2, 0, []⟩ "ADD R2, R1, R3").stalls = 3 ∧
    (stepLine ⟨[("R1", 5)], 2, 0, []⟩ "ADD R2, R1, R3").cycle = 6 ∧
    (hazard [("R1", 5)] 2 ["R1", "R3"]).2 = "R1" := by
  have h := C1_stall_insertion ⟨[("R1", 5)], 2, 0, []⟩ "ADD R2, R1, R3" "ADD" (some "R2")
      ["R1", "R3"] (by decide) (by decide)
  refine ⟨?_, ?_, ?_⟩
  · rw [h.1]; decide
  · rw [h.2.1]; decide
  · have hf := h.2.2.2 (by decide)
    have : (["R1", "R3"].find?
        (fun x => waitOf [("R1", 5)] 2 x == maxWait [("R1", 5)] 2 ["R1", "R3"])) =
        some "R1" := by decide
    rw [this] at hf
    exact (Option.some.inj hf).symm

/-! ### C2: no instruction issues before its sources are ready -/

/-- Are all sources that are present in the table ready by cycle `issue`? -/
def srcsReady (t : Table) (issue : Nat) (srcs : List String) : Bool :=
  srcs.all (fun s =>
    match tlookup t s with
    | some r => decide (r ≤ issue)
    | none => true)

/-- The readiness check for one processed line: trivially true for skipped
blank lines and labels, and for an operation it checks every source present
in the readiness table against the operation's issue cycle
(current cycle plus the stalls the hazard scan inserts). -/
def lineOk (st : SimState) (rawLine : String) : Bool :=
  if pyStrip rawLine = "" then true
  else if (parse_instr (pyStrip rawLine)).1 = some "LABEL" then true
  else
    srcsReady st.table
      (st.cycle + (hazard st.table st.cycle (parse_instr (pyStrip rawLine)).2.2).1)
      (parse_instr (pyStrip rawLine)).2.2

/-- The readiness check along a whole analyzed sequence, threading the same
state updates as `runLines`. -/
def allLinesOk : SimState → List String → Bool
  | _, [] => true
  | st, l :: ls => lineOk st l && allLinesOk (stepLine st l) ls

theorem lineOk_true (st : SimState) (rawLine : String) : lineOk st rawLine = true := by
  unfold lineOk
  by_cases he : pyStrip rawLine = ""
  · simp [he]
  · rw [if_neg he]
    by_cases hl : (parse_instr (pyStrip rawLine)).1 = some "LABEL"
    · simp [hl]
    · rw [if_neg hl]
      unfold srcsReady
      rw [List.all_eq_true]
      intro s hs
      cases hts : tlookup st.table s with
      | none => simp [hts]
      | some r =>
        simp only [hts, decide_eq_true_eq]
        have hw : waitOf st.table st.cycle s = r - st.cycle := by
          unfold waitOf
          rw [hts]
        have hle := waitOf_le_maxWait st.table st.cycle _ s hs
        rw [hw, hazard_fst] at *
        omega

/-- C2: In any analyzed sequence (from any scheduler state), at the cycle
each operation issues, every source register present in the readiness table
has a ready cycle at most that issue cycle: no instruction issues before
all its sources are ready. -/
theorem C2_no_premature_issue (st : SimState) (ls : List String) :
    allLinesOk st ls = true := by
  induction ls generalizing st with
  | nil => rfl
  | cons l ls ih =>
    show (lineOk st l && allLinesOk (stepLine st l) ls) = true
    rw [lineOk_true, ih]
    rfl

end MIPS

namespace MIPS

/-! ### C3: destination update of the readiness table -/

/-- C3: If an `Operation` has a destination register, then after it issues the
readiness table maps that register to `issue_cycle + latency(mnemonic)`,
unconditionally overwriting any prior entry for that register and leaving
all other registers untouched; instructions without a destination, and
labels, leave the readiness table completely unchanged. -/
theorem C3_dest_update (st : SimState) (rawLine : String) :
    (∀ m dd srcs, parse_instr (pyStrip rawLine) = (some m, some dd, srcs) →
      m ≠ "LABEL" →
      (stepLine st rawLine).table =
        tinsert st.table dd
          (st.cycle + (hazard st.table st.cycle srcs).1 + get_latency m) ∧
      tlookup (stepLine st rawLine).table dd =
        some (st.cycle + (hazard st.table st.cycle srcs).1 + get_latency m) ∧
      ∀ k, k ≠ dd →
        tlookup (stepLine st rawLine).table k = tlookup st.table k) ∧
    (∀ o srcs, parse_instr (pyStrip rawLine) = (o, none, srcs) →
      (stepLine st rawLine).table = st.table) ∧
    (∀ dd srcs, parse_instr (pyStrip rawLine) = (some "LABEL", dd, srcs) →
      (stepLine st rawLine).table = st.table) := by
  refine ⟨?_, ?_, ?_⟩
  · intro m dd srcs hp hm
    have hne := parse_nonempty_of_some rawLine m (some dd) srcs hp
    have hm' : (some m : Option String) ≠ some "LABEL" :=
      fun hh => hm (Option.some.inj hh)
    have hstep := stepLine_of_nonlabel st rawLine (some m) (some dd) srcs hne hp hm'
    rw [hstep]
    refine ⟨rfl, tlookup_tinsert_self _ _ _, fun k hk => tlookup_tinsert_ne _ _ _ _ hk⟩
  · intro o srcs hp
    by_cases he : pyStrip rawLine = ""
    · rw [stepLine_of_empty st rawLine he]
    · by_cases hL : o = some "LABEL"
      · subst hL
        rw [stepLine_of_label st rawLine none srcs hp]
      · rw [stepLine_of_nonlabel st rawLine o none srcs he hp hL]
  · intro dd srcs hp
    rw [stepLine_of_label st rawLine dd srcs hp]

/-- Witness for C3: a load creates its destination's readiness entry at
`issue + latency`, and a store leaves the table unchanged. -/
theorem C3_dest_update_witness :
    tlookup (stepLine ⟨[], 1, 0, []⟩ "L.D F0, 0(R1)").table "F0" = some 3 ∧
    (stepLine ⟨[("F4", 7)], 1, 0, []⟩ "S.D F4, 0(R1)").table = [("F4", 7)] := by
  constructor
  · have h := (C3_dest_update ⟨[], 1, 0, []⟩ "L.D F0, 0(R1)").1 "L.D" "F0" ["R1"]
      (by decide) (by decide)
    rw [h.2.1]
    decide
  · have h := (C3_dest_update ⟨[("F4", 7)], 1, 0, []⟩ "S.D F4, 0(R1)").2.1
      (some "S.D") ["F4", "R1"] (by decide)
    rw [h]

/-! ### C4: the latency policy -/

/-- C4: The latency function is a fixed stateless lookup: divide-class
mnemonics return 10, multiply-class return 4, load-class return 2, and
every other mnemonic, recognized or not, returns 1. -/
theorem C4_latency_policy :
    get_latency "DIV.D" = 10 ∧ get_latency "DIV" = 10 ∧
    get_latency "MUL.D" = 4 ∧ get_latency "MUL" = 4 ∧
    get_latency "L.D" = 2 ∧ get_latency "LW" = 2 ∧
    ∀ op : String,
      op ∉ (["DIV.D", "DIV", "MUL.D", "MUL", "L.D", "LW"] : List String) →
      get_latency op = 1 := by
  refine ⟨rfl, rfl, rfl, rfl, rfl, rfl, ?_⟩
  intro op h
  simp only [List.mem_cons, List.not_mem_nil, or_false, not_or] at h
  obtain ⟨h1, h2, h3, h4, h5, h6⟩ := h
  unfold get_latency
  rw [if_neg (by tauto), if_neg (by tauto), if_neg (by tauto)]

/-- Witness for C4 at the unrecognized mnemonic `DADDUI`. -/
theorem C4_latency_policy_witness : get_latency "DADDUI" = 1 :=
  C4_latency_policy.2.2.2.2.2.2 "DADDUI" (by decide)

/-! ### C8: reset isolation and determinism -/

/-- C8: Analyzing a sequence on a scheduler instance that has already
analyzed another sequence gives exactly the same result as analyzing it on
any other instance (no readiness state leaks between runs, because
`analyze` resets the table first), and re-running the same sequence yields
an identical result. -/
theorem C8_reset_isolation (t1 t2 : Table) (s1 s2 : String) :
    (analyze (analyze t1 s1).2 s2).1 = (analyze t2 s2).1 ∧
    (analyze (analyze t1 s1).2 s1).1 = (analyze t1 s1).1 ∧
    (analyze t1 s2).1 = (analyze t2 s2).1 :=
  ⟨rfl, rfl, rfl⟩

end MIPS

namespace MIPS

/-! ### C9: empty input -/

/-- Counterexample to C9 as stated: on empty input the summary reports an
instruction count of 1, not 0, because splitting the stripped empty string
on newlines yields one (empty, skipped) line that is still counted. -/
theorem C9_counterexample :
    (analyze [] "").1.instCount = 1 ∧ ¬ (analyze [] "").1.instCount = 0 := by
  decide

/-- C9 amended: for empty or whitespace-only input the analysis performs no
work (no log entries, zero stalls, zero elapsed cycles), but the reported
instruction count is 1 rather than 0. -/
theorem C9_empty_input (code : String) (h : pyStrip code = "") :
    (analyze [] code).1.stalls = 0 ∧
    (analyze [] code).1.execCycles = 0 ∧
    (analyze [] code).1.instCount = 1 ∧
    (analyze [] code).1.log = [] := by
  have hl : linesOf code = [""] := by
    unfold linesOf
    rw [h]
    rfl
  have hrun : runLines initState [""] = initState := by
    show stepLine initState "" = initState
    exact stepLine_of_empty initState "" rfl
  simp only [analyze, hl, hrun]
  exact ⟨rfl, rfl, rfl, rfl⟩

/-- Witness for C9 (amended) at a whitespace-only input. -/
theorem C9_empty_input_witness :
    pyStrip "  \t " = "" ∧
    (analyze [] "  \t ").1.stalls = 0 ∧
    (analyze [] "  \t ").1.execCycles = 0 ∧
    (analyze [] "  \t ").1.instCount = 1 := by
  have h := C9_empty_input "  \t " (by decide)
  exact ⟨by decide, h.1, h.2.1, h.2.2.1⟩

/-! ### C5: cycle numbering of the schedule -/

/-- The cycle numbers of all schedule entries, labels included. -/
def logCycles (lg : List LogLine) : List Nat := lg.map LogLine.cycleOf

/-- The cycle numbers of the non-label schedule entries (bubbles and
executed instructions). -/
def nonLabelCycles (lg : List LogLine) : List Nat :=
  (lg.filter (fun e => ! e.isLabelLn)).map LogLine.cycleOf

/-- The consecutive cycle numbers `s, s+1, ..., s+n-1`. -/
def natsFrom (s n : Nat) : List Nat := (List.range n).map (fun i => s + i)

/-- Counterexample to C5 as stated: a label line is emitted at the current
cycle without advancing it, so the label entry and the following
instruction entry share a cycle number and the full entry list is not
strictly increasing. -/
theorem C5_counterexample :
    ¬ List.Chain' (· < ·) (logCycles (analyze [] "Loop:\nADD R1, R2, R3").1.log) := by
  have h : logCycles (analyze [] "Loop:\nADD R1, R2, R3").1.log = [1, 1] := by decide
  rw [h]
  simp [List.chain'_cons]

theorem natsFrom_succ (s n : Nat) : natsFrom s (n + 1) = natsFrom s n ++ [s + n] := by
  simp [natsFrom, List.range_succ]

theorem natsFrom_append (s a b : Nat) :
    natsFrom s a ++ natsFrom (s + a) b = natsFrom s (a + b) := by
  induction b with
  | zero => simp [natsFrom]
  | succ n ih =>
    have hsum : s + a + n = s + (a + n) := by omega
    rw [natsFrom_succ, ← List.append_assoc, ih, hsum, ← natsFrom_succ]
    try congr 1
    try omega

theorem natsFrom_glue (s c1 c2 : Nat) (h1 : s ≤ c1) (h2 : c1 ≤ c2) :
    natsFrom s (c1 - s) ++ natsFrom c1 (c2 - c1) = natsFrom s (c2 - s) := by
  have e : c1 = s + (c1 - s) := by omega
  calc natsFrom s (c1 - s) ++ natsFrom c1 (c2 - c1)
      = natsFrom s (c1 - s) ++ natsFrom (s + (c1 - s)) (c2 - c1) := by rw [← e]
    _ = natsFrom s (c1 - s + (c2 - c1)) := natsFrom_append _ _ _
    _ = natsFrom s (c2 - s) := by congr 1; omega

theorem step_cycles (st : SimState) (l : String) :
    nonLabelCycles (stepLine st l).log =
      nonLabelCycles st.log ++ natsFrom st.cycle ((stepLine st l).cycle - st.cycle) ∧
    st.cycle ≤ (stepLine st l).cycle := by
  by_cases he : pyStrip l = ""
  · rw [stepLine_of_empty st l he]
    simp [natsFrom]
  · rcases hp : parse_instr (pyStrip l) with ⟨o, d, srcs⟩
    by_cases hL : o = some "LABEL"
    · subst hL
      rw [stepLine_of_label st l d srcs hp]
      constructor
      · show nonLabelCycles (st.log ++ [LogLine.labelLn st.cycle (pyStrip l)]) =
          nonLabelCycles st.log ++ natsFrom st.cycle (st.cycle - st.cycle)
        simp [nonLabelCycles, List.filter_append, LogLine.isLabelLn, natsFrom]
      · exact Nat.le_refl _
    · rw [stepLine_of_nonlabel st l o d srcs he hp hL]
      constructor
      · have hdrop : st.cycle + (hazard st.table st.cycle srcs).1 + 1 - st.cycle =
            (hazard st.table st.cycle srcs).1 + 1 := by omega
        show nonLabelCycles (st.log
              ++ (List.range (hazard st.table st.cycle srcs).1).map
                  (fun i => LogLine.bubble (st.cycle + i) (hazard st.table st.cycle srcs).2)
              ++ [LogLine.execLn (st.cycle + (hazard st.table st.cycle srcs).1)
                    (pyStrip l) o]) =
          nonLabelCycles st.log
            ++ natsFrom st.cycle
                (st.cycle + (hazard st.table st.cycle srcs).1 + 1 - st.cycle)
        rw [hdrop, natsFrom_succ]
        simp [nonLabelCycles, List.filter_append, List.map_append, List.filter_map,
          Function.comp_def, LogLine.isLabelLn, LogLine.cycleOf, natsFrom, List.map_map,
          List.append_assoc, List.filter_true, Bool.not_false]
      · show st.cycle ≤ st.cycle + (hazard st.table st.cycle srcs).1 + 1
        omega

theorem runLines_cycles (ls : List String) : ∀ st : SimState,
    nonLabelCycles (runLines st ls).log =
      nonLabelCycles st.log ++ natsFrom st.cycle ((runLines st ls).cycle - st.cycle) ∧
    st.cycle ≤ (runLines st ls).cycle := by
  induction ls with
  | nil =>
    intro st
    simp [runLines, natsFrom]
  | cons l ls ih =>
    intro st
    have h1 := step_cycles st l
    have h2 := ih (stepLine st l)
    have hr : runLines st (l :: ls) = runLines (stepLine st l) ls := rfl
    rw [hr]
    refine ⟨?_, by omega⟩
    rw [h2.1, h1.1, List.append_assoc]
    congr 1
    exact natsFrom_glue st.cycle (stepLine st l).cycle (runLines (stepLine st l) ls).cycle
      h1.2 h2.2

theorem natsFrom_cons (s k : Nat) : natsFrom s (k + 1) = s :: natsFrom (s + 1) k := by
  have hf : (fun i => s + (i + 1)) = (fun i => s + 1 + i) := by
    funext i
    omega
  simp [natsFrom, List.range_succ_eq_map, List.map_map, Function.comp_def,
    Nat.succ_eq_add_one, hf]

theorem chain_lt_natsFrom (s n : Nat) : List.Chain' (· < ·) (natsFrom s n) := by
  induction n generalizing s with
  | zero => simp [natsFrom]
  | succ k ih =>
    rw [natsFrom_cons, List.chain'_cons']
    refine ⟨?_, ih (s + 1)⟩
    intro b hb
    cases k with
    | zero => simp [natsFrom] at hb
    | succ k2 =>
      rw [natsFrom_cons] at hb
      simp at hb
      omega

/-- C5 amended: excluding label entries (which are printed at the current
cycle without consuming it and can therefore share a cycle number with the
next entry), the schedule entries — bubbles and executed instructions —
occupy exactly the consecutive cycles `1, 2, ..., total_elapsed_cycles`;
in particular their cycle numbers are strictly increasing, and each
operation issues at 1 + the previous non-label entry's cycle, so an
operation's issue cycle is 1 + the previous operation's issue cycle + the
bubbles inserted between them. -/
theorem C5_schedule_cycles (code : String) :
    nonLabelCycles (analyze [] code).1.log =
      natsFrom 1 (analyze [] code).1.execCycles ∧
    List.Chain' (· < ·) (nonLabelCycles (analyze [] code).1.log) := by
  have h := runLines_cycles (linesOf code) initState
  have heq : nonLabelCycles (analyze [] code).1.log =
      natsFrom 1 (analyze [] code).1.execCycles := by
    show nonLabelCycles (runLines initState (linesOf code)).log =
      natsFrom 1 ((runLines initState (linesOf code)).cycle - 1)
    rw [h.1]
    simp [nonLabelCycles, initState]
  refine ⟨heq, ?_⟩
  rw [heq]
  exact chain_lt_natsFrom 1 ((analyze [] code).1.execCycles)

end MIPS

namespace MIPS

/-! ### C6: independent instructions never stall -/

/-- The destination registers a raw line decodes to (empty or a singleton). -/
def lineDests (rawLine : String) : List String :=
  ((parse_instr (pyStrip rawLine)).2.1).toList

/-- The source registers a raw line decodes to. -/
def lineSrcs (rawLine : String) : List String :=
  (parse_instr (pyStrip rawLine)).2.2

/-- No source register of any line coincides with the destination register of
any earlier line. -/
def noShared (ls : List String) : Prop :=
  List.Pairwise (fun a b => ∀ d ∈ lineDests a, d ∉ lineSrcs b) ls

/-- Is the raw line processed as an operation (neither blank nor a label)?
Such lines are exactly the ones that consume a cycle. -/
def isOpLine (rawLine : String) : Bool :=
  if pyStrip rawLine = "" then false
  else if (parse_instr (pyStrip rawLine)).1 = some "LABEL" then false
  else true

/-- How many lines of the input are processed as operations. -/
def opCount : List String → Nat
  | [] => 0
  | l :: ls => (if isOpLine l then 1 else 0) + opCount ls

theorem tlookup_eq_none (t : Table) (s : String) (h : ∀ v, (s, v) ∉ t) :
    tlookup t s = none := by
  induction t with
  | nil => rfl
  | cons p ts ih =>
    obtain ⟨a, b⟩ := p
    have hne : ¬ a = s := fun hh => h b (by rw [hh]; exact List.mem_cons_self _ _)
    show (if a = s then some b else tlookup ts s) = none
    rw [if_neg hne]
    exact ih (fun v hv => h v (List.mem_cons_of_mem _ hv))

theorem maxWait_eq_zero (t : Table) (cur : Nat) (srcs : List String)
    (h : ∀ s ∈ srcs, tlookup t s = none) : maxWait t cur srcs = 0 := by
  induction srcs with
  | nil => rfl
  | cons a rest ih =>
    rw [maxWait_cons]
    have ha : waitOf t cur a = 0 := by
      unfold waitOf
      rw [h a (List.mem_cons_self _ _)]
    rw [ha, ih (fun s hs => h s (List.mem_cons_of_mem _ hs))]
    simp

theorem hazard_of_none (t : Table) (cur : Nat) (srcs : List String)
    (h : ∀ s ∈ srcs, tlookup t s = none) : hazard t cur srcs = (0, "") :=
  (hazard_foldl_char t cur srcs 0 "").1 (Nat.le_of_eq (maxWait_eq_zero t cur srcs h))

theorem mem_tinsert (t : Table) (k d : String) (v w : Nat)
    (h : (k, v) ∈ tinsert t d w) : k = d ∨ (k, v) ∈ t := by
  induction t with
  | nil =>
    simp [tinsert] at h
    exact Or.inl h.1
  | cons p ts ih =>
    obtain ⟨a, b⟩ := p
    by_cases ha : a = d
    · simp only [tinsert, if_pos ha] at h
      rcases List.mem_cons.mp h with h | h
      · exact Or.inl (congrArg Prod.fst h)
      · exact Or.inr (List.mem_cons_of_mem _ h)
    · simp only [tinsert, if_neg ha] at h
      rcases List.mem_cons.mp h with h | h
      · exact Or.inr (by rw [h]; exact List.mem_cons_self _ _)
      · rcases ih h with h | h
        · exact Or.inl h
        · exact Or.inr (List.mem_cons_of_mem _ h)

theorem runLines_noShared (ls : List String) : ∀ st : SimState,
    (∀ k v, (k, v) ∈ st.table → ∀ l ∈ ls, k ∉ lineSrcs l) →
    List.Pairwise (fun a b => ∀ d ∈ lineDests a, d ∉ lineSrcs b) ls →
    (runLines st ls).stalls = st.stalls ∧
    (runLines st ls).cycle = st.cycle + opCount ls := by
  induction ls with
  | nil =>
    intro st _ _
    exact ⟨rfl, by simp [runLines, opCount]⟩
  | cons l ls ih =>
    intro st hkeys hpw
    rw [List.pairwise_cons] at hpw
    obtain ⟨hhead, htail⟩ := hpw
    have hr : runLines st (l :: ls) = runLines (stepLine st l) ls := rfl
    rw [hr]
    by_cases he : pyStrip l = ""
    · have hst : stepLine st l = st := stepLine_of_empty st l he
      rw [hst]
      have hres := ih st
        (fun k v hk l' hl' => hkeys k v hk l' (List.mem_cons_of_mem _ hl')) htail
      have hop : isOpLine l = false := by simp [isOpLine, he]
      refine ⟨hres.1, ?_⟩
      rw [hres.2]
      simp [opCount, hop]
    · rcases hp : parse_instr (pyStrip l) with ⟨o, d, srcs⟩
      by_cases hL : o = some "LABEL"
      · subst hL
        have hst := stepLine_of_label st l d srcs hp
        rw [hst]
        have hres := ih ({ st with log := st.log ++ [LogLine.labelLn st.cycle (pyStrip l)] })
          (fun k v hk l' hl' => hkeys k v hk l' (List.mem_cons_of_mem _ hl')) htail
        have hop : isOpLine l = false := by simp [isOpLine, he, hp]
        refine ⟨hres.1, ?_⟩
        rw [hres.2]
        simp [opCount, hop]
      · have hst := stepLine_of_nonlabel st l o d srcs he hp hL
        have hsrcs : srcs = lineSrcs l := by
          unfold lineSrcs
          rw [hp]
        have hnone : ∀ s ∈ srcs, tlookup st.table s = none := by
          intro s hs
          apply tlookup_eq_none
          intro v hv
          exact hkeys s v hv l (List.mem_cons_self _ _) (hsrcs ▸ hs)
        have hz : hazard st.table st.cycle srcs = (0, "") := hazard_of_none _ _ _ hnone
        have hop : isOpLine l = true := by simp [isOpLine, he, hp, hL]
        have hkeys' : ∀ k v, (k, v) ∈ (stepLine st l).table →
            ∀ l' ∈ ls, k ∉ lineSrcs l' := by
          rw [hst]
          cases d with
          | none =>
            intro k v hk l' hl'
            exact hkeys k v hk l' (List.mem_cons_of_mem _ hl')
          | some dd =>
            intro k v hk l' hl'
            rcases mem_tinsert _ _ _ _ _ hk with hkd | hkt
            · subst hkd
              have hdd : k ∈ lineDests l := by
                unfold lineDests
                rw [hp]
                simp
              exact hhead l' hl' k hdd
            · exact hkeys k v hkt l' (List.mem_cons_of_mem _ hl')
        have hres := ih (stepLine st l) hkeys' htail
        refine ⟨?_, ?_⟩
        · rw [hres.1, hst, hz]
          simp
        · rw [hres.2, hst, hz]
          simp [opCount, hop]
          omega

/-- Counterexample to C6 as stated: a single label line has no registers at
all (so the no-shared-registers hypothesis holds), incurs no stalls, but
elapses 0 cycles while the summary reports an instruction count of 1. -/
theorem C6_counterexample :
    noShared (linesOf "Loop:") ∧
    (analyze [] "Loop:").1.stalls = 0 ∧
    ¬ (analyze [] "Loop:").1.execCycles = (analyze [] "Loop:").1.instCount := by
  refine ⟨?_, by decide, by decide⟩
  have h : linesOf "Loop:" = ["Loop:"] := by decide
  unfold noShared
  rw [h]
  exact List.pairwise_singleton _ _

/-- C6 amended: if no source register of any line equals the destination
register of any earlier line, the analysis inserts zero stall cycles, and
the total elapsed cycles equal the number of lines processed as operations
(labels and blank lines consume no cycle, so this equals the reported
instruction count only when every reported line is an operation). -/
theorem C6_no_dependence_no_stalls (code : String) (h : noShared (linesOf code)) :
    (analyze [] code).1.stalls = 0 ∧
    (analyze [] code).1.execCycles = opCount (linesOf code) := by
  have hres := runLines_noShared (linesOf code) initState
    (by intro k v hk; simp [initState] at hk) h
  refine ⟨hres.1, ?_⟩
  show (runLines initState (linesOf code)).cycle - 1 = opCount (linesOf code)
  rw [hres.2]
  show 1 + opCount (linesOf code) - 1 = opCount (linesOf code)
  omega

/-- Witness for C6 (amended) on two independent instructions. -/
theorem C6_no_dependence_no_stalls_witness :
    noShared (linesOf "ADD R1, R2, R3\nSUB R4, R5, R6") ∧
    (analyze [] "ADD R1, R2, R3\nSUB R4, R5, R6").1.stalls = 0 ∧
    (analyze [] "ADD R1, R2, R3\nSUB R4, R5, R6").1.execCycles =
      opCount (linesOf "ADD R1, R2, R3\nSUB R4, R5, R6") := by
  have hns : noShared (linesOf "ADD R1, R2, R3\nSUB R4, R5, R6") := by
    have h : linesOf "ADD R1, R2, R3\nSUB R4, R5, R6" =
        ["ADD R1, R2, R3", "SUB R4, R5, R6"] := by decide
    unfold noShared
    rw [h]
    refine List.Pairwise.cons ?_ (List.pairwise_singleton _ _)
    intro l' hl' dd hdd
    have hl2 : l' = "SUB R4, R5, R6" := by
      simpa using hl'
    subst hl2
    have hdd2 : dd = "R1" := by
      have : lineDests "ADD R1, R2, R3" = ["R1"] := by decide
      rw [this] at hdd
      simpa using hdd
    subst hdd2
    decide
  have hc := C6_no_dependence_no_stalls "ADD R1, R2, R3\nSUB R4, R5, R6" hns
  exact ⟨hns, hc.1, hc.2⟩

end MIPS

namespace MIPS

/-! ### C7: store/branch/jump operand decoding -/

/-- The claim's description of store/branch/jump source extraction (C7):
an operand containing a parenthesis contributes only the base register
inside the parentheses; a plain operand is kept unless it is a pure
letters/underscore token that neither begins with a recognized register
prefix (`R`/`F`, case-insensitive) nor contains the `$` register sigil. -/
def specStoreSrc (p : String) : Option String :=
  if hasParen p then some (memBase p)
  else if isLabelTok p && ! startsRF p && ! hasSigil p then none
  else some p

theorem storeSrcTok_eq_spec (p : String) : storeSrcTok p = specStoreSrc p := by
  unfold storeSrcTok specStoreSrc
  cases hpar : hasParen p <;>
    cases hlab : isLabelTok p <;>
      cases hsig : hasSigil p <;>
        cases hrf : startsRF p <;>
          simp [hpar, hlab, hsig, hrf]

/-- C7: For every line whose decoded mnemonic is in the fixed
store/branch/jump set, the decoded destination is absent and the sources
are exactly the spec's extraction over the remaining operand tokens:
base registers of parenthesised operands, and plain operands except pure
letters/underscore tokens that neither start with `R`/`F` nor contain
`$` (branch-label tokens are skipped). -/
theorem C7_store_branch_decode (instr m : String) (d : Option String)
    (srcs : List String)
    (hp : parse_instr instr = (some m, d, srcs)) (hm : m ∈ storeBranchOps) :
    d = none ∧
    srcs = (tokenize (pyStrip (stripComment instr))).tail.filterMap specStoreSrc := by
  have hfun : storeSrcTok = specStoreSrc := funext storeSrcTok_eq_spec
  unfold parse_instr at hp
  cases htok : tokenize (pyStrip (stripComment instr)) with
  | nil =>
    rw [htok] at hp
    simp [parseToks] at hp
  | cons p0 rest =>
    rw [htok] at hp
    simp only [parseToks] at hp
    by_cases hcolon : (upStr p0).data.getLast? = some ':'
    · rw [if_pos hcolon] at hp
      have hm' : m = "LABEL" := by
        have h1 := congrArg Prod.fst hp
        simp at h1
        exact h1.symm
      subst hm'
      simp [storeBranchOps] at hm
    · rw [if_neg hcolon] at hp
      by_cases hsb : upStr p0 ∈ storeBranchOps
      · rw [if_pos hsb] at hp
        have h2 : d = none := by
          have h1 := congrArg (fun x => x.2.1) hp
          simpa using h1.symm
        have h3 : srcs = rest.filterMap storeSrcTok := by
          have h1 := congrArg (fun x => x.2.2) hp
          simpa using h1.symm
        refine ⟨h2, ?_⟩
        rw [h3, hfun]
        rfl
      · rw [if_neg hsb] at hp
        cases rest with
        | nil =>
          have hm' : upStr p0 = m := by
            have h1 := congrArg Prod.fst hp
            simpa using h1
          rw [← hm'] at hm
          exact absurd hm hsb
        | cons a b =>
          have hm' : upStr p0 = m := by
            have h1 := congrArg Prod.fst hp
            simpa using h1
          rw [← hm'] at hm
          exact absurd hm hsb

/-- Witness for C7 at `S.D F4, 0(R1)`: no destination, sources `F4` and the
base register `R1`. -/
theorem C7_store_branch_decode_witness :
    parse_instr "S.D F4, 0(R1)" = (some "S.D", none, ["F4", "R1"]) ∧
    ((none : Option String) = none ∧
      ["F4", "R1"] =
        (tokenize (pyStrip (stripComment "S.D F4, 0(R1)"))).tail.filterMap specStoreSrc) := by
  refine ⟨by decide, ?_⟩
  exact C7_store_branch_decode "S.D F4, 0(R1)" "S.D" none ["F4", "R1"]
    (by decide) (by decide)

end MIPS

namespace MIPS

/-! ### C10: comment stripping -/

theorem takeWhile_idem (p : Char → Bool) (l : List Char) :
    (l.takeWhile p).takeWhile p = l.takeWhile p := by
  induction l with
  | nil => rfl
  | cons c cs ih =>
    by_cases h : p c
    · simp [List.takeWhile_cons, h, ih]
    · simp [List.takeWhile_cons, h]

theorem mem_splitAux (p : Char → Bool) : ∀ (cs acc piece : List Char),
    piece ∈ splitAux p cs acc → ∀ c ∈ piece, c ∈ cs ∨ c ∈ acc := by
  intro cs
  induction cs with
  | nil =>
    intro acc piece hp c hc
    simp only [splitAux, List.mem_singleton] at hp
    subst hp
    exact Or.inr (List.mem_reverse.mp hc)
  | cons c0 cs ih =>
    intro acc piece hp c hc
    by_cases h : p c0
    · simp only [splitAux, if_pos h] at hp
      rcases List.mem_cons.mp hp with h1 | h1
      · subst h1
        exact Or.inr (List.mem_reverse.mp hc)
      · rcases ih [] piece h1 c hc with h2 | h2
        · exact Or.inl (List.mem_cons_of_mem _ h2)
        · cases h2
    · simp only [splitAux, if_neg h] at hp
      rcases ih (c0 :: acc) piece hp c hc with h2 | h2
      · exact Or.inl (List.mem_cons_of_mem _ h2)
      · rcases List.mem_cons.mp h2 with h3 | h3
        · exact Or.inl (by rw [h3]; exact List.mem_cons_self _ _)
        · exact Or.inr h3

theorem tokenize_chars (s tok : String) (htok : tok ∈ tokenize s) :
    ∀ c ∈ tok.data, c ∈ s.data := by
  unfold tokenize at htok
  rcases List.mem_map.mp htok with ⟨piece, hpiece, heq⟩
  have hp2 : piece ∈ splitAux isSepChar s.data [] := (List.mem_filter.mp hpiece).1
  intro c hc
  have hdata : tok.data = piece := by rw [← heq]
  rw [hdata] at hc
  rcases mem_splitAux isSepChar s.data [] piece hp2 c hc with h | h
  · exact h
  · cases h

theorem pyStrip_chars (s : String) (c : Char) (hc : c ∈ (pyStrip s).data) :
    c ∈ s.data := by
  unfold pyStrip stripWS at hc
  rw [List.mem_reverse] at hc
  have h1 : c ∈ (s.data.dropWhile isPyWS).reverse := (List.dropWhile_sublist _).subset hc
  rw [List.mem_reverse] at h1
  exact (List.dropWhile_sublist _).subset h1

theorem stripComment_no_hash (s : String) (c : Char)
    (hc : c ∈ (stripComment s).data) : ¬ c = '#' := by
  unfold stripComment at hc
  have h := List.mem_takeWhile_imp hc
  simpa using h

theorem parenBase_chars (cs : List Char) (c : Char) (hc : c ∈ parenBase cs) : c ∈ cs := by
  unfold parenBase at hc
  have h1 : c ∈ (splitAux (fun c2 => c2 = '(') cs []).getD 1 [] :=
    (List.mem_filter.mp hc).1
  rcases hgd : (splitAux (fun c2 => c2 = '(') cs []).get? 1 with _ | piece
  · rw [List.getD_eq_get?, hgd] at h1
    cases h1
  · rw [List.getD_eq_get?, hgd] at h1
    have hmem : piece ∈ splitAux (fun c2 => c2 = '(') cs [] := List.get?_mem hgd
    rcases mem_splitAux _ cs [] piece hmem c h1 with h | h
    · exact h
    · cases h

theorem parse_srcs_chars (instr s : String) (hs : s ∈ (parse_instr instr).2.2) :
    ∀ c ∈ s.data, c ∈ (pyStrip (stripComment instr)).data := by
  intro c hc
  unfold parse_instr at hs
  cases htok : tokenize (pyStrip (stripComment instr)) with
  | nil =>
    rw [htok] at hs
    simp [parseToks] at hs
  | cons p0 rest =>
    rw [htok] at hs
    simp only [parseToks] at hs
    by_cases hcolon : (upStr p0).data.getLast? = some ':'
    · rw [if_pos hcolon] at hs
      simp at hs
    · rw [if_neg hcolon] at hs
      by_cases hsb : upStr p0 ∈ storeBranchOps
      · rw [if_pos hsb] at hs
        simp only [Prod.snd] at hs
        rcases List.mem_filterMap.mp hs with ⟨tok, htk, hmap⟩
        have htok2 : tok ∈ tokenize (pyStrip (stripComment instr)) := by
          rw [htok]
          exact List.mem_cons_of_mem _ htk
        unfold storeSrcTok at hmap
        by_cases hpar : hasParen tok
        · rw [if_pos hpar] at hmap
          have hsm : s = memBase tok := (Option.some.inj hmap).symm
          rw [hsm] at hc
          exact tokenize_chars _ _ htok2 c (parenBase_chars tok.data c hc)
        · rw [if_neg hpar] at hmap
          have hsm : s = tok := by
            by_cases hlab : ¬ (isLabelTok tok = true)
            · rw [if_pos hlab] at hmap
              exact (Option.some.inj hmap).symm
            · rw [if_neg hlab] at hmap
              by_cases hsr : hasSigil tok || startsRF tok
              · rw [if_pos hsr] at hmap
                exact (Option.some.inj hmap).symm
              · rw [if_neg hsr] at hmap
                cases hmap
          rw [hsm] at hc
          exact tokenize_chars _ _ htok2 c hc
      · rw [if_neg hsb] at hs
        cases rest with
        | nil => simp at hs
        | cons d srcToks =>
          simp only [Prod.snd] at hs
          rcases List.mem_map.mp hs with ⟨tok, htk, hmap⟩
          have htok2 : tok ∈ tokenize (pyStrip (stripComment instr)) := by
            rw [htok]
            exact List.mem_cons_of_mem _ (List.mem_cons_of_mem _ htk)
          unfold plainSrcTok at hmap
          by_cases hpar : hasParen tok
          · rw [if_pos hpar] at hmap
            rw [← hmap] at hc
            exact tokenize_chars _ _ htok2 c (parenBase_chars tok.data c hc)
          · rw [if_neg hpar] at hmap
            rw [← hmap] at hc
            exact tokenize_chars _ _ htok2 c hc

/-- C10: The comment marker is `#` and everything from the first `#` to the
end of the line is discarded before tokenization: decoding a line is the
same as decoding its prefix before the first `#`, no decoded source ever
contains `#`, and concretely `DADDUI R1, R1, #-8` decodes with the
immediate `#-8` removed. -/
theorem C10_comment_discarded (instr : String) :
    parse_instr instr = parse_instr (stripComment instr) ∧
    (∀ s ∈ (parse_instr instr).2.2, '#' ∉ s.data) ∧
    parse_instr "DADDUI R1, R1, #-8" = (some "DADDUI", some "R1", ["R1"]) := by
  refine ⟨?_, ?_, by decide⟩
  · unfold parse_instr
    have h : stripComment (stripComment instr) = stripComment instr := by
      unfold stripComment
      exact congrArg String.mk (takeWhile_idem _ _)
    rw [h]
  · intro s hs hmem
    have h1 := parse_srcs_chars instr s hs '#' hmem
    have h2 := pyStrip_chars (stripComment instr) '#' h1
    exact stripComment_no_hash instr '#' h2 rfl

/-- Witness for C10: the post-`#` immediate is gone and the decoded source
`R1` of the `DADDUI` line contains no `#`. -/
theorem C10_comment_discarded_witness :
    "R1" ∈ (parse_instr "DADDUI R1, R1, #-8").2.2 ∧ '#' ∉ "R1".data := by
  refine ⟨by decide, ?_⟩
  exact (C10_comment_discarded "DADDUI R1, R1, #-8").2.1 "R1" (by decide)

end MIPS
